import Mathlib

/-!
A shallow embedding of the LogCar log-as-storage core
(src/railway/logs/read.ts, src/database/chunkUtil.ts,
src/database/railwayUtil.ts, src/database/index.ts, src/config/index.ts),
together with theorems settling the frozen claims about it.

JavaScript strings are modelled as `List Char`; JSON numbers are modelled as
integers (the repository only ever stores and measures their decimal string
form, which `toString` on `Int` reproduces for integral numbers).
-/

set_option maxRecDepth 20000

namespace LogCar

/-- JSON-like values, the payloads handled by the chunker
(`src/railway/logs/read.ts`). Object entries keep insertion order, as
JavaScript objects do. -/
inductive JVal where
  | str (s : List Char)
  | num (n : Int)
  | bool (b : Bool)
  | null
  | arr (elems : List JVal)
  | obj (entries : List (String × JVal))

/-- JavaScript `String(value)` for the non-string scalar values the code
applies it to (`getStringLength` and the `generateChunks` fallback reach it
only after the string / array / object branches have been dispatched, so the
`arr` / `obj` branches below are never consulted). -/
def jsScalarStr : JVal → List Char
  | JVal.str s => s
  | JVal.num n => (toString n).toList
  | JVal.bool b => if b then "true".toList else "false".toList
  | JVal.null => "null".toList
  | JVal.arr _ => []
  | JVal.obj _ => []

mutual
/-- Model of `getStringLength` (read.ts lines 92-103): string → character count;
array → sum over elements; object → sum over `Object.values` (values only —
keys are not counted here); anything else → `String(value).length`. -/
def getStringLength : JVal → Nat
  | JVal.str s => s.length
  | JVal.arr xs => sumLens xs
  | JVal.obj kvs => sumValLens kvs
  | v => (jsScalarStr v).length

/-- The `reduce` over an array's elements inside `getStringLength`. -/
def sumLens : List JVal → Nat
  | [] => 0
  | v :: vs => getStringLength v + sumLens vs

/-- The `reduce` over `Object.values` inside `getStringLength`. -/
def sumValLens : List (String × JVal) → Nat
  | [] => 0
  | (_, v) :: kvs => getStringLength v + sumValLens kvs
end

/-- Model of `Math.ceil(a / b)` on naturals (used with `b ≥ 1`). -/
def ceilDiv (a b : Nat) : Nat := (a + b - 1) / b

/-- String slicing loop of `generateChunks` (read.ts lines 193-199):
consecutive `slice(i, i + L)` pieces.  The `fuel` argument is a structural
bound (the source loop advances by `L ≥ 1` per step and so terminates; for
the degenerate `L = 0` the source would not terminate, and every theorem
below assumes `1 ≤ L`). -/
def chunkStrF (L : Nat) : Nat → List Char → List (List Char)
  | _, [] => []
  | 0, _ => []
  | fuel + 1, s => s.take L :: chunkStrF L fuel (s.drop L)

/-- Consecutive slices of `s` of length `L` (the string case of
`generateChunks`). -/
def chunkStr (L : Nat) (s : List Char) : List (List Char) :=
  chunkStrF L s.length s

/-- An element of a bucket produced by `splitArray`: either a plain value, or
the `{ __RECURSIVE_CHUNK__: item }` wrapper the source pushes for an
individually oversized element. -/
inductive AElem where
  | plain (v : JVal)
  | recMark (v : JVal)

/-- Loop body of `splitArray` (read.ts lines 106-144).  State: buckets
pushed so far, the current bucket, and `currentLength`. -/
def saGo (L : Nat) : List JVal → List (List AElem) → List AElem → Nat → List (List AElem)
  | [], chunks, cur, _ => if cur.isEmpty then chunks else chunks ++ [cur]
  | item :: rest, chunks, cur, curLen =>
    let itemLen := getStringLength item
    if L < itemLen then
      saGo L rest ((if cur.isEmpty then chunks else chunks ++ [cur]) ++ [[AElem.recMark item]]) [] 0
    else if L < curLen + itemLen ∧ cur.isEmpty = false then
      saGo L rest (chunks ++ [cur]) [AElem.plain item] itemLen
    else
      saGo L rest chunks (cur ++ [AElem.plain item]) (curLen + itemLen)

/-- Model of `splitArray` (read.ts lines 106-144). -/
def splitArray (xs : List JVal) (L : Nat) : List (List AElem) :=
  if sumLens xs ≤ L then [xs.map AElem.plain]
  else saGo L xs [] [] 0

/-- An entry of a bucket produced by `splitObject`: a plain entry, or the
`{ [key]: { __RECURSIVE_CHUNK__: value } }` wrapper for an entry whose value
is individually oversized. -/
inductive OElem where
  | plain (k : String) (v : JVal)
  | recMark (k : String) (v : JVal)

/-- Loop body of `splitObject` (read.ts lines 147-187). -/
def soGo (L : Nat) : List (String × JVal) → List (List OElem) → List OElem → Nat → List (List OElem)
  | [], chunks, cur, _ => if cur.isEmpty then chunks else chunks ++ [cur]
  | (k, v) :: rest, chunks, cur, curLen =>
    let keyLen := k.length
    let valueLen := getStringLength v
    let entryLen := keyLen + valueLen
    if L < valueLen then
      soGo L rest ((if cur.isEmpty then chunks else chunks ++ [cur]) ++ [[OElem.recMark k v]]) [] 0
    else if L < curLen + entryLen ∧ cur.isEmpty = false then
      soGo L rest (chunks ++ [cur]) [OElem.plain k v] entryLen
    else
      soGo L rest chunks (cur ++ [OElem.plain k v]) (curLen + entryLen)

/-- Model of `splitObject` (read.ts lines 147-187). -/
def splitObject (kvs : List (String × JVal)) (L : Nat) : List (List OElem) :=
  if sumValLens kvs ≤ L then [kvs.map fun kv => OElem.plain kv.1 kv.2]
  else soGo L kvs [] [] 0

/-- The virtual length contributed by an array-bucket element. -/
def aPayloadLen : AElem → Nat
  | AElem.plain v => getStringLength v
  | AElem.recMark v => getStringLength v

/-- The virtual length (value lengths only, as `getStringLength` counts an
object) contributed by an object-bucket entry. -/
def oValLen : OElem → Nat
  | OElem.plain _ v => getStringLength v
  | OElem.recMark _ v => getStringLength v

/-- The weight of an object-bucket entry as the spec's claim counts it:
key length plus value length. -/
def oEntryLen : OElem → Nat
  | OElem.plain k v => k.length + getStringLength v
  | OElem.recMark k v => k.length + getStringLength v

/-- The weight of an object bucket: sum of key length + value length over
its entries. -/
def oWeight (b : List OElem) : Nat := (b.map oEntryLen).sum

/-- An array bucket is within bounds: it is either the singleton recursive
envelope of an oversized element, or all-plain with total virtual length
at most `L`. -/
def ABucketBounded (L : Nat) (b : List AElem) : Prop :=
  (∃ v, b = [AElem.recMark v] ∧ L < getStringLength v) ∨
    ((∀ e ∈ b, ∃ v, e = AElem.plain v) ∧ (b.map aPayloadLen).sum ≤ L)

/-- An object bucket is within bounds: it is either the singleton recursive
envelope of an entry with oversized value, or all-plain with total virtual
length (sum of value lengths) at most `L`. -/
def OBucketBounded (L : Nat) (b : List OElem) : Prop :=
  (∃ k v, b = [OElem.recMark k v] ∧ L < getStringLength v) ∨
    ((∀ e ∈ b, ∃ k v, e = OElem.plain k v) ∧ (b.map oValLen).sum ≤ L)

theorem sumLens_eq_map_sum (xs : List JVal) :
    sumLens xs = (xs.map getStringLength).sum := by
  induction xs with
  | nil => rfl
  | cons v vs ih => simp [sumLens, ih]

theorem sumValLens_eq_map_sum (kvs : List (String × JVal)) :
    sumValLens kvs = (kvs.map fun kv => getStringLength kv.2).sum := by
  induction kvs with
  | nil => rfl
  | cons kv kvs ih => obtain ⟨k, v⟩ := kv; simp [sumValLens, ih]

/-- C4 (amended): the size estimator returns, for a string, its character
count; for an array, the sum of its elements' virtual lengths; for a mapping,
the sum of its entries' VALUE lengths (keys are not counted); for any other
value, the length of its string representation. -/
theorem getStringLength_characterization :
    (∀ s, getStringLength (JVal.str s) = s.length) ∧
    (∀ xs, getStringLength (JVal.arr xs) = (xs.map getStringLength).sum) ∧
    (∀ kvs, getStringLength (JVal.obj kvs) =
      (kvs.map fun kv => getStringLength kv.2).sum) ∧
    (∀ n, getStringLength (JVal.num n) = (jsScalarStr (JVal.num n)).length) ∧
    (∀ b, getStringLength (JVal.bool b) = (jsScalarStr (JVal.bool b)).length) ∧
    (getStringLength JVal.null = (jsScalarStr JVal.null).length) := by
  refine ⟨fun s => rfl, fun xs => ?_, fun kvs => ?_, fun n => rfl, fun b => ?_, rfl⟩
  · simpa [getStringLength] using sumLens_eq_map_sum xs
  · simpa [getStringLength] using sumValLens_eq_map_sum kvs
  · cases b <;> rfl

/-- C4 (counterexample): the claim says a mapping's virtual length is the sum
of (key length + value length) over its entries; on `{"kk": "c"}` that would
be `2 + 1 = 3`, but `getStringLength` counts only the values and returns 1. -/
theorem getStringLength_keys_not_counted :
    getStringLength (JVal.obj [("kk", JVal.str ['c'])]) = 1 ∧
    getStringLength (JVal.obj [("kk", JVal.str ['c'])]) ≠
      "kk".length + getStringLength (JVal.str ['c']) := by
  constructor
  · rfl
  · decide

theorem oValLen_le_oEntryLen (e : OElem) : oValLen e ≤ oEntryLen e := by
  cases e <;> simp [oValLen, oEntryLen]

theorem saGo_bounded (L : Nat) (rest : List JVal) :
    ∀ (chunks : List (List AElem)) (cur : List AElem),
      (∀ b ∈ chunks, ABucketBounded L b) →
      (∀ e ∈ cur, ∃ v, e = AElem.plain v) →
      (cur = [] ∨ (cur.map aPayloadLen).sum ≤ L) →
      ∀ b ∈ saGo L rest chunks cur ((cur.map aPayloadLen).sum),
        ABucketBounded L b := by
  induction rest with
  | nil =>
    intro chunks cur hchunks hplain hbound b hb
    simp only [saGo] at hb
    rcases cur with _ | ⟨e, cur⟩
    · simpa using hchunks b (by simpa using hb)
    · rw [if_neg (show ¬ ((e :: cur).isEmpty = true) by simp)] at hb
      rcases List.mem_append.mp hb with h | h
      · exact hchunks b h
      · have hb' : b = e :: cur := by simpa using h
        subst hb'
        exact Or.inr ⟨hplain, hbound.resolve_left (by simp)⟩
  | cons item rest ih =>
    intro chunks cur hchunks hplain hbound b hb
    simp only [saGo] at hb
    by_cases h1 : L < getStringLength item
    · rw [if_pos h1] at hb
      have hflush : ∀ b ∈ ((if cur.isEmpty then chunks else chunks ++ [cur]) ++
          [[AElem.recMark item]]), ABucketBounded L b := by
        intro b hb
        rcases List.mem_append.mp hb with h | h
        · rcases cur with _ | ⟨e, cur⟩
          · exact hchunks b (by simpa using h)
          · rw [if_neg (show ¬ ((e :: cur).isEmpty = true) by simp)] at h
            rcases List.mem_append.mp h with h' | h'
            · exact hchunks b h'
            · have hb' : b = e :: cur := by simpa using h'
              subst hb'
              exact Or.inr ⟨hplain, hbound.resolve_left (by simp)⟩
        · have hb' : b = [AElem.recMark item] := by simpa using h
          subst hb'
          exact Or.inl ⟨item, rfl, h1⟩
      have := ih _ [] hflush (by simp) (Or.inl rfl)
      simpa using this b hb
    · rw [if_neg h1] at hb
      by_cases h2 : L < (cur.map aPayloadLen).sum + getStringLength item ∧
          cur.isEmpty = false
      · rw [if_pos h2] at hb
        have hcur_ne : cur ≠ [] := by
          intro h; rw [h] at h2; simp at h2
        have hchunks' : ∀ b ∈ chunks ++ [cur], ABucketBounded L b := by
          intro b hb
          rcases List.mem_append.mp hb with h | h
          · exact hchunks b h
          · have hb' : b = cur := by simpa using h
            subst hb'
            exact Or.inr ⟨hplain, hbound.resolve_left hcur_ne⟩
        have := ih _ [AElem.plain item] hchunks'
          (by intro e he; exact ⟨item, by simpa using he⟩)
          (Or.inr (by simpa [aPayloadLen] using Nat.le_of_not_lt h1))
        simpa [aPayloadLen] using this b hb
      · rw [if_neg h2] at hb
        have hsum' : ((cur ++ [AElem.plain item]).map aPayloadLen).sum =
            (cur.map aPayloadLen).sum + getStringLength item := by
          simp [aPayloadLen]
        have hbound' : cur ++ [AElem.plain item] = [] ∨
            ((cur ++ [AElem.plain item]).map aPayloadLen).sum ≤ L := by
          refine Or.inr ?_
          rw [hsum']
          rcases cur with _ | ⟨e, cur⟩
          · simpa using Nat.le_of_not_lt h1
          · have : ¬ L < (List.map aPayloadLen (e :: cur)).sum + getStringLength item := by
              intro hlt; exact h2 ⟨hlt, by simp⟩
            exact Nat.le_of_not_lt this
        have := ih chunks (cur ++ [AElem.plain item]) hchunks
          (by
            intro e he
            rcases List.mem_append.mp he with h | h
            · exact hplain e h
            · exact ⟨item, by simpa using h⟩)
          hbound'
        rw [hsum'] at this
        exact this b hb

theorem soGo_bounded (L : Nat) (rest : List (String × JVal)) :
    ∀ (chunks : List (List OElem)) (cur : List OElem),
      (∀ b ∈ chunks, OBucketBounded L b) →
      (∀ e ∈ cur, ∃ k v, e = OElem.plain k v) →
      (cur = [] ∨ (cur.map oValLen).sum ≤ L) →
      ∀ b ∈ soGo L rest chunks cur ((cur.map oEntryLen).sum),
        OBucketBounded L b := by
  induction rest with
  | nil =>
    intro chunks cur hchunks hplain hbound b hb
    simp only [soGo] at hb
    rcases cur with _ | ⟨e, cur⟩
    · simpa using hchunks b (by simpa using hb)
    · rw [if_neg (show ¬ ((e :: cur).isEmpty = true) by simp)] at hb
      rcases List.mem_append.mp hb with h | h
      · exact hchunks b h
      · have hb' : b = e :: cur := by simpa using h
        subst hb'
        exact Or.inr ⟨hplain, hbound.resolve_left (by simp)⟩
  | cons kv rest ih =>
    obtain ⟨k, v⟩ := kv
    intro chunks cur hchunks hplain hbound b hb
    simp only [soGo] at hb
    by_cases h1 : L < getStringLength v
    · rw [if_pos h1] at hb
      have hflush : ∀ b ∈ ((if cur.isEmpty then chunks else chunks ++ [cur]) ++
          [[OElem.recMark k v]]), OBucketBounded L b := by
        intro b hb
        rcases List.mem_append.mp hb with h | h
        · rcases cur with _ | ⟨e, cur⟩
          · exact hchunks b (by simpa using h)
          · rw [if_neg (show ¬ ((e :: cur).isEmpty = true) by simp)] at h
            rcases List.mem_append.mp h with h' | h'
            · exact hchunks b h'
            · have hb' : b = e :: cur := by simpa using h'
              subst hb'
              exact Or.inr ⟨hplain, hbound.resolve_left (by simp)⟩
        · have hb' : b = [OElem.recMark k v] := by simpa using h
          subst hb'
          exact Or.inl ⟨k, v, rfl, h1⟩
      have := ih _ [] hflush (by simp) (Or.inl rfl)
      simpa using this b hb
    · rw [if_neg h1] at hb
      by_cases h2 : L < (cur.map oEntryLen).sum + (k.length + getStringLength v) ∧
          cur.isEmpty = false
      · rw [if_pos h2] at hb
        have hcur_ne : cur ≠ [] := by
          intro h; rw [h] at h2; simp at h2
        have hchunks' : ∀ b ∈ chunks ++ [cur], OBucketBounded L b := by
          intro b hb
          rcases List.mem_append.mp hb with h | h
          · exact hchunks b h
          · have hb' : b = cur := by simpa using h
            subst hb'
            exact Or.inr ⟨hplain, hbound.resolve_left hcur_ne⟩
        have := ih _ [OElem.plain k v] hchunks'
          (by intro e he; exact ⟨k, v, by simpa using he⟩)
          (Or.inr (by simpa [oValLen] using Nat.le_of_not_lt h1))
        simpa [oEntryLen] using this b hb
      · rw [if_neg h2] at hb
        have hsum' : ((cur ++ [OElem.plain k v]).map oEntryLen).sum =
            (cur.map oEntryLen).sum + (k.length + getStringLength v) := by
          simp [oEntryLen]
        have hval_le : (cur.map oValLen).sum ≤ (cur.map oEntryLen).sum :=
          List.sum_le_sum (by intro e he; exact oValLen_le_oEntryLen e)
        have hbound' : cur ++ [OElem.plain k v] = [] ∨
            ((cur ++ [OElem.plain k v]).map oValLen).sum ≤ L := by
          refine Or.inr ?_
          have hsv : ((cur ++ [OElem.plain k v]).map oValLen).sum =
              (cur.map oValLen).sum + getStringLength v := by
            simp [oValLen]
          rw [hsv]
          rcases cur with _ | ⟨e, cur⟩
          · simpa using Nat.le_of_not_lt h1
          · have hle : ¬ L < (List.map oEntryLen (e :: cur)).sum +
                (k.length + getStringLength v) := by
              intro hlt; exact h2 ⟨hlt, by simp⟩
            have := Nat.le_of_not_lt hle
            omega
        have := ih chunks (cur ++ [OElem.plain k v]) hchunks
          (by
            intro e he
            rcases List.mem_append.mp he with h | h
            · exact hplain e h
            · exact ⟨k, v, by simpa using h⟩)
          hbound'
        rw [hsum'] at this
        exact this b hb

theorem chunkStrF_mem_length (L : Nat) :
    ∀ (fuel : Nat) (s : List Char), ∀ p ∈ chunkStrF L fuel s, p.length ≤ L := by
  intro fuel
  induction fuel with
  | zero =>
    intro s p hp
    cases s <;> simp [chunkStrF] at hp
  | succ fuel ih =>
    intro s p hp
    cases s with
    | nil => simp [chunkStrF] at hp
    | cons c s =>
      simp only [chunkStrF] at hp
      rcases List.mem_cons.mp hp with h | h
      · subst h; simp [Nat.min_le_left]
      · exact ih _ p h

/-- C3 (amended): every bucket emitted by `splitArray` or `splitObject` is
either the singleton recursive envelope of an individually oversized element
(which recurses, by design), or has VIRTUAL length — for an object bucket the
sum of its VALUE lengths, which is how `getStringLength` measures an object —
at most `L`; and every string slice produced by the string-chunking loop has
length at most `L`.  The claim's stronger bound on an object bucket's weight
(key length + value length) does not hold; see the counterexample. -/
theorem chunk_buckets_bounded (L : Nat) :
    (∀ xs, ∀ b ∈ splitArray xs L, ABucketBounded L b) ∧
    (∀ kvs, ∀ b ∈ splitObject kvs L, OBucketBounded L b) ∧
    (∀ fuel s, ∀ p ∈ chunkStrF L fuel s, p.length ≤ L) := by
  refine ⟨fun xs b hb => ?_, fun kvs b hb => ?_, chunkStrF_mem_length L⟩
  · rw [splitArray] at hb
    split at hb
    · have hb' : b = xs.map AElem.plain := by simpa using hb
      subst hb'
      refine Or.inr ⟨by simp, ?_⟩
      have : (List.map aPayloadLen (xs.map AElem.plain)).sum = sumLens xs := by
        rw [sumLens_eq_map_sum]
        simp [Function.comp_def, aPayloadLen]
      omega
    · simpa using saGo_bounded L xs [] [] (by simp) (by simp) (Or.inl rfl) b
        (by simpa using hb)
  · rw [splitObject] at hb
    split at hb
    · have hb' : b = kvs.map fun kv => OElem.plain kv.1 kv.2 := by simpa using hb
      subst hb'
      refine Or.inr ⟨by intro e he; simp at he; obtain ⟨a, c, _, h⟩ := he; exact ⟨a, c, h.symm⟩, ?_⟩
      have : (List.map oValLen (kvs.map fun kv => OElem.plain kv.1 kv.2)).sum =
          sumValLens kvs := by
        rw [sumValLens_eq_map_sum]
        simp [Function.comp_def, oValLen]
      omega
    · simpa using soGo_bounded L kvs [] [] (by simp) (by simp) (Or.inl rfl) b
        (by simpa using hb)

/-- Witness for `chunk_buckets_bounded` at a concrete instance. -/
theorem chunk_buckets_bounded_witness :
    ABucketBounded 2 [AElem.plain (JVal.str ['a'])] := by
  have hmem : [AElem.plain (JVal.str ['a'])] ∈ splitArray [JVal.str ['a']] 2 := by
    show [AElem.plain (JVal.str ['a'])] ∈ [[AElem.plain (JVal.str ['a'])]]
    exact List.mem_singleton_self _
  exact (chunk_buckets_bounded 2).1 [JVal.str ['a']] _ hmem

/-- C3 (counterexample): on `{"kk": "vvv"}` with `L = 4` the whole object is
emitted as one bucket (its virtual length, 3, passes the values-only early
check), yet the bucket's weight — key length + value length, as the claim
counts it — is `2 + 3 = 5 > 4`. -/
theorem splitObject_weight_exceeds_limit :
    splitObject [("kk", JVal.str ['v', 'v', 'v'])] 4 =
      [[OElem.plain "kk" (JVal.str ['v', 'v', 'v'])]] ∧
    4 < oWeight [OElem.plain "kk" (JVal.str ['v', 'v', 'v'])] := by
  constructor
  · rfl
  · decide

mutual
/-- The data slot of a hierarchical chunk produced by `generateChunks`
(read.ts lines 75-80): a string slice, a scalar value, an array bucket or an
object bucket. -/
inductive CData where
  | cstr (s : List Char)
  | cval (v : JVal)
  | arrB (items : List CItem)
  | objB (entries : List (String × CItem))

/-- One slot of an array/object bucket after `generateChunks` replaced each
`__RECURSIVE_CHUNK__` wrapper by the recursive chunk list: either a plain
value or a nested chunk list.  The source detects nested chunk lists at run
time by shape (a non-empty array whose head is an object with an `index`
key); the typed model identifies them by construction, assuming plain JSON
payloads do not spoof that shape. -/
inductive CItem where
  | plain (v : JVal)
  | nested (cs : List Chunk)

/-- A hierarchical chunk (`Chunk<T>`, read.ts lines 75-80). -/
inductive Chunk where
  | mk (data : CData) (index : Nat) (total : Nat) (isNested : Bool)
end

def Chunk.data : Chunk → CData
  | Chunk.mk d _ _ _ => d

def Chunk.index : Chunk → Nat
  | Chunk.mk _ i _ _ => i

def Chunk.total : Chunk → Nat
  | Chunk.mk _ _ t _ => t

def Chunk.isNested : Chunk → Bool
  | Chunk.mk _ _ _ b => b

/-- The run-time test `Array.isArray(item) && item.length > 0 && item[0] &&
typeof item[0] === 'object' && 'index' in item[0]` on a bucket slot. -/
def isChunkListItem : CItem → Bool
  | CItem.nested (_ :: _) => true
  | _ => false

/-- Model of `hasRecursiveChunks` over an array bucket (read.ts lines 214-216). -/
def hasNestedA (items : List CItem) : Bool := items.any isChunkListItem

/-- Model of `hasRecursiveChunks` over an object bucket (read.ts lines 240-242). -/
def hasNestedO (entries : List (String × CItem)) : Bool :=
  entries.any fun kv => isChunkListItem kv.2

mutual
/-- Depth of a JSON value; used as the structural recursion bound for
`generateChunks`, whose recursive calls descend only into elements / entry
values of the input. -/
def jdepth : JVal → Nat
  | JVal.arr xs => 1 + jdepthList xs
  | JVal.obj kvs => 1 + jdepthObj kvs
  | _ => 1

def jdepthList : List JVal → Nat
  | [] => 0
  | v :: vs => max (jdepth v) (jdepthList vs)

def jdepthObj : List (String × JVal) → Nat
  | [] => 0
  | (_, v) :: kvs => max (jdepth v) (jdepthObj kvs)
end

/-- Model of `list.map((x, i) => f(i + start, x))`: positional map, used for the
`(chunk, index) => …` maps in `generateChunks`. -/
def idxMapFrom (f : Nat → α → β) : Nat → List α → List β
  | _, [] => []
  | i, x :: xs => f i x :: idxMapFrom f (i + 1) xs

/-- Model of `generateChunks` (read.ts lines 189-274).  `fuel` is the structural
recursion bound; the recursive calls only descend into `__RECURSIVE_CHUNK__`
payloads, which are elements (resp. entry values) of the input, so
`jdepth v` fuel (see `generateChunks`) never runs out. -/
def genCF (L : Nat) : Nat → JVal → List Chunk
  | 0, _ => []
  | fuel + 1, v =>
    match v with
    | JVal.str s =>
      idxMapFrom
        (fun i p => Chunk.mk (CData.cstr p) i (ceilDiv s.length L) false) 0
        (chunkStr L s)
    | JVal.arr xs =>
      let buckets := splitArray xs L
      idxMapFrom
        (fun idx bucket =>
          let processed := bucket.map fun e =>
            match e with
            | AElem.plain w => CItem.plain w
            | AElem.recMark w => CItem.nested (genCF L fuel w)
          Chunk.mk (CData.arrB processed) idx buckets.length (hasNestedA processed))
        0 buckets
    | JVal.obj kvs =>
      let buckets := splitObject kvs L
      idxMapFrom
        (fun idx bucket =>
          let processed := bucket.map fun e =>
            match e with
            | OElem.plain k w => (k, CItem.plain w)
            | OElem.recMark k w => (k, CItem.nested (genCF L fuel w))
          Chunk.mk (CData.objB processed) idx buckets.length (hasNestedO processed))
        0 buckets
    | v =>
      if getStringLength v ≤ L then [Chunk.mk (CData.cval v) 0 1 false]
      else
        idxMapFrom
          (fun i p => Chunk.mk (CData.cstr p) i (ceilDiv (jsScalarStr v).length L) false) 0
          (chunkStr L (jsScalarStr v))

/-- Model of `generateChunks` at its natural fuel. -/
def generateChunks (v : JVal) (L : Nat) : List Chunk := genCF L (jdepth v) v

theorem chunkStrF_join (L : Nat) (hL : 1 ≤ L) :
    ∀ (fuel : Nat) (s : List Char), s.length ≤ fuel →
      (chunkStrF L fuel s).flatten = s := by
  intro fuel
  induction fuel with
  | zero =>
    intro s hs
    have : s = [] := List.eq_nil_of_length_eq_zero (Nat.le_zero.mp hs)
    subst this; rfl
  | succ fuel ih =>
    intro s hs
    cases s with
    | nil => rfl
    | cons c s =>
      have hdrop : ((c :: s).drop L).length ≤ fuel := by
        simp only [List.length_drop]
        simp only [List.length_cons] at hs ⊢
        omega
      show (List.take L (c :: s) :: chunkStrF L fuel (List.drop L (c :: s))).flatten = c :: s
      rw [List.flatten_cons, ih _ hdrop, List.take_append_drop]

theorem ceilDiv_succ_step (L n : Nat) (hL : 1 ≤ L) (hn : 1 ≤ n) :
    ceilDiv (n - L) L + 1 = ceilDiv n L := by
  by_cases hcase : n ≤ L
  · have h0 : n - L = 0 := by omega
    rw [h0]
    have hz : ceilDiv 0 L = 0 := by
      unfold ceilDiv
      exact Nat.div_eq_of_lt (by omega)
    have h1 : ceilDiv n L = 1 := by
      unfold ceilDiv
      exact Nat.div_eq_of_lt_le (by omega) (by omega)
    omega
  · have h1 : n - L + L - 1 = n - 1 := by omega
    have h2 : n + L - 1 = n - 1 + L := by omega
    unfold ceilDiv
    rw [h1, h2, Nat.add_div_right _ (by omega)]

theorem chunkStrF_count (L : Nat) (hL : 1 ≤ L) :
    ∀ (fuel : Nat) (s : List Char), s.length ≤ fuel →
      (chunkStrF L fuel s).length = ceilDiv s.length L := by
  have hzero : ceilDiv 0 L = 0 := by
    unfold ceilDiv
    exact Nat.div_eq_of_lt (by omega)
  intro fuel
  induction fuel with
  | zero =>
    intro s hs
    have : s = [] := List.eq_nil_of_length_eq_zero (Nat.le_zero.mp hs)
    subst this
    simp [chunkStrF, hzero]
  | succ fuel ih =>
    intro s hs
    cases s with
    | nil => simp [chunkStrF, hzero]
    | cons c s =>
      have hdrop : ((c :: s).drop L).length ≤ fuel := by
        simp only [List.length_drop]
        simp only [List.length_cons] at hs ⊢
        omega
      have hrec := ih _ hdrop
      simp only [chunkStrF, List.length_cons, hrec, List.length_drop]
      exact ceilDiv_succ_step L (s.length + 1) hL (by omega)

theorem length_idxMapFrom (f : Nat → α → β) :
    ∀ (i : Nat) (xs : List α), (idxMapFrom f i xs).length = xs.length := by
  intro i xs
  induction xs generalizing i with
  | nil => rfl
  | cons x xs ih => simp [idxMapFrom, ih]

theorem idxMapFrom_map_index (g : Nat → α → Chunk)
    (hg : ∀ i x, (g i x).index = i) :
    ∀ (i : Nat) (xs : List α),
      (idxMapFrom g i xs).map Chunk.index = List.range' i xs.length := by
  intro i xs
  induction xs generalizing i with
  | nil => rfl
  | cons x xs ih =>
    simp [idxMapFrom, List.range'_succ, hg, ih]

theorem idxMapFrom_total (g : Nat → α → Chunk) (t : Nat)
    (hg : ∀ i x, (g i x).total = t) :
    ∀ (i : Nat) (xs : List α), ∀ c ∈ idxMapFrom g i xs, c.total = t := by
  intro i xs
  induction xs generalizing i with
  | nil => intro c hc; simp [idxMapFrom] at hc
  | cons x xs ih =>
    intro c hc
    rcases List.mem_cons.mp hc with h | h
    · subst h; exact hg i x
    · exact ih _ c h

theorem idxMapFrom_map_data (g : Nat → α → Chunk) (h : α → CData)
    (hg : ∀ i x, (g i x).data = h x) :
    ∀ (i : Nat) (xs : List α),
      (idxMapFrom g i xs).map Chunk.data = xs.map h := by
  intro i xs
  induction xs generalizing i with
  | nil => rfl
  | cons x xs ih => simp [idxMapFrom, hg, ih]

/-- C8: chunking a non-empty string with limit `L ≥ 1` produces
`⌈|s|/L⌉` fragments; their data fields are string slices whose in-order
concatenation is `s` (i.e. the consecutive slices of `s` left to right),
each of length at most `L`; the indices are `0, 1, …` in order and every
fragment's total is `⌈|s|/L⌉`. -/
theorem generateChunks_string_spec (s : List Char) (L : Nat)
    (_hs : s ≠ []) (hL : 1 ≤ L) :
    (generateChunks (JVal.str s) L).length = ceilDiv s.length L ∧
    (generateChunks (JVal.str s) L).map Chunk.data = (chunkStr L s).map CData.cstr ∧
    (chunkStr L s).flatten = s ∧
    (∀ p ∈ chunkStr L s, p.length ≤ L) ∧
    (generateChunks (JVal.str s) L).map Chunk.index =
      List.range (generateChunks (JVal.str s) L).length ∧
    (∀ c ∈ generateChunks (JVal.str s) L, c.total = ceilDiv s.length L) := by
  have hunfold : generateChunks (JVal.str s) L =
      idxMapFrom
        (fun i p => Chunk.mk (CData.cstr p) i (ceilDiv s.length L) false) 0
        (chunkStr L s) := rfl
  have hlen : (generateChunks (JVal.str s) L).length = (chunkStr L s).length := by
    rw [hunfold, length_idxMapFrom]
  have hcount := chunkStrF_count L hL s.length s le_rfl
  refine ⟨by rw [hlen]; exact hcount, ?_, ?_, ?_, ?_, ?_⟩
  · rw [hunfold]
    exact idxMapFrom_map_data
      (fun i p => Chunk.mk (CData.cstr p) i (ceilDiv s.length L) false)
      CData.cstr (fun i x => rfl) 0 (chunkStr L s)
  · exact chunkStrF_join L hL s.length s le_rfl
  · exact chunkStrF_mem_length L s.length s
  · rw [hunfold,
      idxMapFrom_map_index
        (fun i p => Chunk.mk (CData.cstr p) i (ceilDiv s.length L) false)
        (fun i x => rfl),
      length_idxMapFrom, List.range_eq_range']
  · rw [hunfold]
    exact idxMapFrom_total
      (fun i p => Chunk.mk (CData.cstr p) i (ceilDiv s.length L) false)
      (ceilDiv s.length L) (fun i x => rfl) 0 (chunkStr L s)

/-- Witness for `generateChunks_string_spec`, instantiated at scenario S1:
`chunk("abcdefghij", 4)` gives data `"abcd"`, `"efgh"`, `"ij"`, with
`total = 3` and `idx ∈ {0, 1, 2}`. -/
theorem generateChunks_string_spec_witness :
    (generateChunks (JVal.str "abcdefghij".toList) 4).length =
      ceilDiv "abcdefghij".toList.length 4 ∧
    generateChunks (JVal.str "abcdefghij".toList) 4 =
      [Chunk.mk (CData.cstr "abcd".toList) 0 3 false,
       Chunk.mk (CData.cstr "efgh".toList) 1 3 false,
       Chunk.mk (CData.cstr "ij".toList) 2 3 false] :=
  ⟨(generateChunks_string_spec "abcdefghij".toList 4 (by decide) (by decide)).1,
   by rfl⟩

/-- A flattened chunk record (`FlatChunk`, read.ts lines 82-89).  The source
pushes records carrying a running `globalIndex` and `total: 0`, then the
final loop of `flattenChunks` overwrites `index` with the list position and
`total` with the list length; the builders below leave `0` placeholders and
`renumberFrom` performs that final overwrite. -/
structure FlatRec where
  data : CData
  index : Nat
  total : Nat
  chunkId : String
  parentId : Option String
  position : String

mutual
/-- The first branch of `extractLeafData` (read.ts lines 373-388), taken when
its argument is a chunk list (a non-empty array of chunk objects). -/
def flatOfChunkList : List Chunk → String → List FlatRec
  | [], _ => []
  | Chunk.mk d i _ nested :: cs, parentId =>
    (if nested then flatOfData d (parentId ++ ".c" ++ toString i)
     else [⟨d, 0, 0, parentId ++ ".c" ++ toString i, some parentId,
            parentId ++ "[" ++ toString i ++ "]"⟩])
    ++ flatOfChunkList cs parentId

/-- Model of `extractLeafData` (read.ts lines 372-413) on a data value that is not a
chunk list.  A JS array that is not chunk-shaped falls into the
`typeof data === 'object'` branch, where `Object.entries` enumerates its
elements under decimal string keys; `flatOfArrEntries` reproduces that for
array buckets. -/
def flatOfData : CData → String → List FlatRec
  | CData.arrB items, parentId => flatOfArrEntries items 0 parentId
  | CData.objB kvs, parentId => flatOfObjEntries kvs parentId
  | d, parentId => [⟨d, 0, 0, parentId, none, parentId⟩]

/-- Model of `Object.entries` iteration of the object branch of `extractLeafData`
applied to an array bucket (keys are the decimal positions). -/
def flatOfArrEntries : List CItem → Nat → String → List FlatRec
  | [], _, _ => []
  | it :: rest, i, parentId =>
    (match it with
     | CItem.nested (c :: cs) =>
       flatOfChunkList (c :: cs) (parentId ++ "." ++ toString i)
     | it' =>
       [⟨CData.objB [(toString i, it')], 0, 0, parentId ++ "." ++ toString i,
         some parentId, parentId ++ "." ++ toString i⟩])
    ++ flatOfArrEntries rest (i + 1) parentId

/-- Model of `Object.entries` iteration of the object branch of `extractLeafData`
applied to an object bucket (read.ts lines 389-403). -/
def flatOfObjEntries : List (String × CItem) → String → List FlatRec
  | [], _ => []
  | (k, it) :: rest, parentId =>
    (match it with
     | CItem.nested (c :: cs) => flatOfChunkList (c :: cs) (parentId ++ "." ++ k)
     | it' =>
       [⟨CData.objB [(k, it')], 0, 0, parentId ++ "." ++ k, some parentId,
         parentId ++ "." ++ k⟩])
    ++ flatOfObjEntries rest parentId
end

/-- The root loop of `flattenChunks` (read.ts lines 416-431). -/
def flatRoots : List Chunk → Nat → List FlatRec
  | [], _ => []
  | Chunk.mk d _ _ nested :: cs, i =>
    (if nested then flatOfData d ("root" ++ toString i)
     else [⟨d, 0, 0, "root" ++ toString i, none, "root" ++ toString i⟩])
    ++ flatRoots cs (i + 1)

/-- The final renumbering loop of `flattenChunks` (read.ts lines 434-437):
`flatChunks[i].index = i; flatChunks[i].total = flatChunks.length`. -/
def renumberFrom (total : Nat) : Nat → List FlatRec → List FlatRec
  | _, [] => []
  | i, f :: fs => { f with index := i, total := total } :: renumberFrom total (i + 1) fs

/-- Model of `flattenChunks` (read.ts lines 368-440). -/
def flattenChunks (cs : List Chunk) : List FlatRec :=
  renumberFrom (flatRoots cs 0).length 0 (flatRoots cs 0)

/-- The record shape returned by `extractLogChunks` (read.ts lines 443-453). -/
structure LogChunk where
  data : CData
  chunkId : String
  index : Nat
  total : Nat

/-- Model of `extractLogChunks` (read.ts lines 443-453): generate hierarchical chunks,
flatten them, and project the logged fields. -/
def extractLogChunks (v : JVal) (L : Nat) : List LogChunk :=
  (flattenChunks (generateChunks v L)).map fun f =>
    ⟨f.data, f.chunkId, f.index, f.total⟩

theorem renumberFrom_length (t : Nat) :
    ∀ (i : Nat) (fs : List FlatRec), (renumberFrom t i fs).length = fs.length := by
  intro i fs
  induction fs generalizing i with
  | nil => rfl
  | cons f fs ih => simp [renumberFrom, ih]

theorem renumberFrom_map_index (t : Nat) :
    ∀ (i : Nat) (fs : List FlatRec),
      (renumberFrom t i fs).map FlatRec.index = List.range' i fs.length := by
  intro i fs
  induction fs generalizing i with
  | nil => rfl
  | cons f fs ih => simp [renumberFrom, List.range'_succ, ih]

theorem renumberFrom_total (t : Nat) :
    ∀ (i : Nat) (fs : List FlatRec), ∀ f ∈ renumberFrom t i fs, f.total = t := by
  intro i fs
  induction fs generalizing i with
  | nil => intro f hf; simp [renumberFrom] at hf
  | cons g fs ih =>
    intro f hf
    rcases List.mem_cons.mp hf with h | h
    · subst h; rfl
    · exact ih _ f h

/-- C7: for every value and limit, the flat fragment list of one write group
carries indices that are exactly `0, 1, …, total − 1` in order, and every
fragment's `total` equals the number of fragments emitted. -/
theorem extractLogChunks_index_contiguous (v : JVal) (L : Nat) (hL : 1 ≤ L) :
    (extractLogChunks v L).map LogChunk.index =
      List.range (extractLogChunks v L).length ∧
    ∀ f ∈ extractLogChunks v L, f.total = (extractLogChunks v L).length := by
  have hproj : ∀ (fs : List FlatRec),
      (fs.map fun f => (⟨f.data, f.chunkId, f.index, f.total⟩ : LogChunk)).map
          LogChunk.index = fs.map FlatRec.index := by
    intro fs
    simp [Function.comp_def]
  have hlen : (extractLogChunks v L).length =
      (flatRoots (generateChunks v L) 0).length := by
    simp [extractLogChunks, flattenChunks, renumberFrom_length]
  constructor
  · rw [extractLogChunks, hproj, flattenChunks, renumberFrom_map_index]
    simp [renumberFrom_length, List.range_eq_range']
  · intro f hf
    simp only [extractLogChunks, List.mem_map] at hf
    obtain ⟨g, hg, hfg⟩ := hf
    have := renumberFrom_total (flatRoots (generateChunks v L) 0).length 0
      (flatRoots (generateChunks v L) 0) g (by simpa [flattenChunks] using hg)
    rw [← hfg, hlen]
    simpa using this

/-- Witness for `extractLogChunks_index_contiguous` at a concrete input. -/
theorem extractLogChunks_index_contiguous_witness :
    (extractLogChunks (JVal.str ['a', 'b']) 1).map LogChunk.index =
      List.range (extractLogChunks (JVal.str ['a', 'b']) 1).length ∧
    ∀ f ∈ extractLogChunks (JVal.str ['a', 'b']) 1,
      f.total = (extractLogChunks (JVal.str ['a', 'b']) 1).length :=
  extractLogChunks_index_contiguous (JVal.str ['a', 'b']) 1 (by decide)

/-- A dynamic JavaScript value as the read side manipulates it: JSON values,
`undefined`, and chunk objects (a chunk list carried around as a plain value
shows up as an array of `chunkObj`s).  Array holes are conflated with
explicit `undefined`, which the reconstruction code treats identically in
every reachable place. -/
inductive DVal where
  | str (s : List Char)
  | num (n : Int)
  | bool (b : Bool)
  | null
  | undef
  | arr (xs : List DVal)
  | obj (kvs : List (String × DVal))
  | chunkObj (c : Chunk)

mutual
/-- Injection of a JSON value into the dynamic values. -/
def jvalToDyn : JVal → DVal
  | JVal.str s => DVal.str s
  | JVal.num n => DVal.num n
  | JVal.bool b => DVal.bool b
  | JVal.null => DVal.null
  | JVal.arr xs => DVal.arr (jvalListToDyn xs)
  | JVal.obj kvs => DVal.obj (jvalObjToDyn kvs)

def jvalListToDyn : List JVal → List DVal
  | [] => []
  | v :: vs => jvalToDyn v :: jvalListToDyn vs

def jvalObjToDyn : List (String × JVal) → List (String × DVal)
  | [] => []
  | (k, v) :: kvs => (k, jvalToDyn v) :: jvalObjToDyn kvs
end

/-- A chunk list, as a JS value: an array of chunk objects. -/
def chunkObjList : List Chunk → List DVal
  | [] => []
  | c :: cs => DVal.chunkObj c :: chunkObjList cs

mutual
/-- The JS value denoted by a bucket slot. -/
def citemToDyn : CItem → DVal
  | CItem.plain v => jvalToDyn v
  | CItem.nested cs => DVal.arr (chunkObjList cs)

def citemListToDyn : List CItem → List DVal
  | [] => []
  | it :: rest => citemToDyn it :: citemListToDyn rest

def citemObjToDyn : List (String × CItem) → List (String × DVal)
  | [] => []
  | (k, it) :: rest => (k, citemToDyn it) :: citemObjToDyn rest
end

/-- The JS value denoted by a chunk's data slot (what the read side sees). -/
def cdToDyn : CData → DVal
  | CData.cstr s => DVal.str s
  | CData.cval v => jvalToDyn v
  | CData.arrB items => DVal.arr (citemListToDyn items)
  | CData.objB kvs => DVal.obj (citemObjToDyn kvs)

mutual
/-- JavaScript `String(value)` on a dynamic value (arrays join their
elements with `","`, `null` / `undefined` inside an array stringify to the
empty string, plain objects — chunk objects included — give
`"[object Object]"`). -/
def jsToString : DVal → List Char
  | DVal.str s => s
  | DVal.num n => (toString n).toList
  | DVal.bool b => if b then "true".toList else "false".toList
  | DVal.null => "null".toList
  | DVal.undef => "undefined".toList
  | DVal.arr xs => jsArrToString xs
  | DVal.obj _ => "[object Object]".toList
  | DVal.chunkObj _ => "[object Object]".toList

def jsArrToString : List DVal → List Char
  | [] => []
  | [DVal.null] => []
  | [DVal.undef] => []
  | [x] => jsToString x
  | DVal.null :: xs => ',' :: jsArrToString xs
  | DVal.undef :: xs => ',' :: jsArrToString xs
  | x :: xs => jsToString x ++ (',' :: jsArrToString xs)
end

/-- Element coercion used by `Array.prototype.join`: `null` and `undefined`
become the empty string. -/
def jsElemToString : DVal → List Char
  | DVal.null => []
  | DVal.undef => []
  | x => jsToString x

/-- Strip a literal from the front of a character list (`none` if it does
not start with it). -/
def stripLit : List Char → List Char → Option (List Char)
  | [], s => some s
  | _, [] => none
  | l :: ls, c :: cs => if c = l then stripLit ls cs else none

/-- Model of `s.startsWith(t)`. -/
def strStartsWith (s t : String) : Bool := (stripLit t.toList s.toList).isSome

/-- Take one or more leading decimal digits. -/
def takeDigits (s : List Char) : Option (List Char × List Char) :=
  let ds := s.takeWhile Char.isDigit
  if ds.isEmpty then none else some (ds, s.dropWhile Char.isDigit)

/-- Digit run to number (the digits of a `parseInt` match). -/
def digitsToNat (ds : List Char) : Nat :=
  ds.foldl (fun a c => a * 10 + (c.toNat - '0'.toNat)) 0

/-- JavaScript `parseInt` on a path segment: optional sign, then leading
decimal digits (a trailing non-digit remainder is ignored); `none` models
`NaN`. -/
def parseIntHead (s : String) : Option Int :=
  match s.toList with
  | '-' :: rest => (takeDigits rest).map fun p => -(digitsToNat p.1 : Int)
  | l => (takeDigits l).map fun p => (digitsToNat p.1 : Int)

/-- One global-regex replacement pass: scan left to right, at each position
either fire the matcher (emitting its replacement and resuming after the
consumed characters, as `String.replace` with a global regex does) or copy
one character.  Every matcher below consumes at least one character when it
fires, so `fuel = length` suffices. -/
def scanReplace (m : List Char → Option (List Char × List Char)) :
    Nat → List Char → List Char
  | _, [] => []
  | 0, s => s
  | fuel + 1, c :: s =>
    match m (c :: s) with
    | some (repl, rest) => repl ++ scanReplace m fuel rest
    | none => c :: scanReplace m fuel s

/-- Matcher for `/\.mixedArray\.c(\d+)(?:\.0)?/g` with replacement
`'.mixedArray.$1'` (read.ts line 477). -/
def matchMixedArray (s : List Char) : Option (List Char × List Char) := do
  let r1 ← stripLit ".mixedArray.c".toList s
  let (ds, r2) ← takeDigits r1
  let r3 := match r2 with
    | '.' :: '0' :: r => r
    | _ => r2
  some (".mixedArray.".toList ++ ds, r3)

/-- Matcher for `/\.c\d+\.0\./g` with replacement `'.'` (read.ts line 480). -/
def matchChunkDotZero (s : List Char) : Option (List Char × List Char) :=
  match s with
  | '.' :: 'c' :: r =>
    match takeDigits r with
    | some (_, '.' :: '0' :: '.' :: r3) => some (['.'], r3)
    | _ => none
  | _ => none

/-- Matcher for `/\.c\d+\./g` with replacement `'.'` (read.ts line 480). -/
def matchChunkDot (s : List Char) : Option (List Char × List Char) :=
  match s with
  | '.' :: 'c' :: r =>
    match takeDigits r with
    | some (_, '.' :: r3) => some (['.'], r3)
    | _ => none
  | _ => none

/-- Model of `/\.c\d+$/` stripped from the end (read.ts line 483). -/
def stripTerminalChunk (s : List Char) : List Char :=
  let r := s.reverse
  let ds := r.takeWhile Char.isDigit
  if ds.isEmpty then s
  else
    match r.drop ds.length with
    | 'c' :: '.' :: rest => rest.reverse
    | _ => s

/-- The content path of a chunk id (read.ts lines 473-483): the chained
regex replacements followed by stripping a terminal chunk index. -/
def contentPathOf (chunkId : String) : String :=
  let s0 := chunkId.toList
  let s1 := scanReplace matchMixedArray s0.length s0
  let s2 := scanReplace matchChunkDotZero s1.length s1
  let s3 := scanReplace matchChunkDot s2.length s2
  String.mk (stripTerminalChunk s3)

/-- Model of `getLastChunkIndex` (read.ts lines 501-505): the number of a terminal
`.cN`, else 0. -/
def lastChunkIndex (chunkId : String) : Nat :=
  let r := chunkId.toList.reverse
  let ds := r.takeWhile Char.isDigit
  if ds.isEmpty then 0
  else
    match r.drop ds.length with
    | 'c' :: '.' :: _ => digitsToNat ds.reverse
    | _ => 0

/-- Stable insertion of `x` into a sorted list (ties keep `x` first, so the
overall sort below is stable, like the ES2019+ `Array.prototype.sort`). -/
def insSorted (le : α → α → Bool) (x : α) : List α → List α
  | [] => [x]
  | y :: ys => if le x y then x :: y :: ys else y :: insSorted le x ys

/-- Stable sort by a boolean `≤`; models the JS comparator-based stable
sort extensionally. -/
def isortBy (le : α → α → Bool) : List α → List α
  | [] => []
  | x :: xs => insSorted le x (isortBy le xs)

/-- Append into a JS `Map`-like association list, preserving insertion
order of keys. -/
def insertGrouped (m : List (String × List LogChunk)) (k : String)
    (c : LogChunk) : List (String × List LogChunk) :=
  match m with
  | [] => [(k, [c])]
  | (q, cs) :: rest =>
    if q = k then (q, cs ++ [c]) :: rest else (q, cs) :: insertGrouped rest k c

/-- Step 1 of `reconstructFromLogChunks`: group chunks by content path. -/
def groupByContentPath : List LogChunk → List (String × List LogChunk) →
    List (String × List LogChunk)
  | [], m => m
  | c :: cs, m => groupByContentPath cs (insertGrouped m (contentPathOf c.chunkId) c)

/-- The array-flattening loop in step 2 of `reconstructFromLogChunks`. -/
def flattenArrDatas : List LogChunk → List DVal
  | [] => []
  | c :: cs =>
    (match cdToDyn c.data with
     | DVal.arr xs => xs
     | _ => []) ++ flattenArrDatas cs

/-- Step 2 of `reconstructFromLogChunks` (read.ts lines 491-529) for one
content group: a single chunk passes its data through; several chunks are
sorted by trailing chunk index, then concatenated as strings
(`join('')` with JS element coercion), flattened as arrays, or collapsed
to the first chunk's data. -/
def reassembleGroup (chunks : List LogChunk) : DVal :=
  match chunks with
  | [c] => cdToDyn c.data
  | _ =>
    let sorted := isortBy
      (fun a b => decide (lastChunkIndex a.chunkId ≤ lastChunkIndex b.chunkId))
      chunks
    match sorted with
    | [] => DVal.undef
    | first :: _ =>
      match cdToDyn first.data with
      | DVal.str _ =>
        DVal.str ((sorted.map fun c => jsElemToString (cdToDyn c.data)).flatten)
      | DVal.arr _ => DVal.arr (flattenArrDatas sorted)
      | d => d

/-- Model of `"…".split('.')` on characters. -/
def splitOnDotGo : List Char → List Char → List (List Char)
  | [], acc => [acc.reverse]
  | '.' :: rest, acc => acc.reverse :: splitOnDotGo rest []
  | c :: rest, acc => splitOnDotGo rest (c :: acc)

def splitOnDot (s : List Char) : List String :=
  (splitOnDotGo s []).map String.mk

/-- Model of `contentPath.split('.').length`, the depth key of the path sort. -/
def pathDepth (s : String) : Nat := (splitOnDot s.toList).length

/-- Lexicographic `≤` on characters, modelling `localeCompare` on the ASCII
path strings the code produces. -/
def charListLe : List Char → List Char → Bool
  | [], _ => true
  | _ :: _, [] => false
  | a :: as, b :: bs => if a = b then charListLe as bs else decide (a < b)

/-- The path comparator of step 3 (read.ts lines 535-540): depth ascending,
then lexicographic. -/
def pathLe (a b : String) : Bool :=
  if pathDepth a = pathDepth b then charListLe a.toList b.toList
  else decide (pathDepth a < pathDepth b)

/-- Ordered-preserving upsert into an object's entry list (JS property
assignment keeps the original key position). -/
def upsert : List (String × DVal) → String → DVal → List (String × DVal)
  | [], k, v => [(k, v)]
  | (q, w) :: rest, k, v =>
    if q = k then (q, v) :: rest else (q, w) :: upsert rest k v

/-- Model of `Object.assign(target, source)` on entry lists. -/
def objAssign (kvs : List (String × DVal)) : List (String × DVal) →
    List (String × DVal)
  | [] => kvs
  | (k, v) :: rest => objAssign (upsert kvs k v) rest

def lookupEntry : List (String × DVal) → String → Option DVal
  | [], _ => none
  | (q, w) :: rest, k => if q = k then some w else lookupEntry rest k

/-- A canonical JS array index string: non-empty digits with no leading
zero (except `"0"` itself); only such keys address array elements. -/
def isArrayIndexStr (k : String) : Bool :=
  match k.toList with
  | [] => false
  | ['0'] => true
  | c :: cs => c ≠ '0' ∧ (c :: cs).all Char.isDigit

/-- Array element assignment `xs[i] = v`, extending with holes (modelled as
`undefined`) when `i` is beyond the end. -/
def setAtExtend (xs : List DVal) (i : Nat) (v : DVal) : List DVal :=
  if i < xs.length then xs.set i v
  else xs ++ List.replicate (i - xs.length) DVal.undef ++ [v]

/-- The merge loop of step 3 (read.ts lines 584-587): starting at `i`, fill
positions that currently hold `undefined`. -/
def mergeArrVals : List DVal → Nat → List DVal → List DVal
  | xs, _, [] => xs
  | xs, i, v :: vs =>
    let cur := xs.getD i DVal.undef
    let xs1 := match cur with
      | DVal.undef => setAtExtend xs i v
      | _ => xs
    mergeArrVals xs1 (i + 1) vs

/-- The final assignment of step 3 when the final key parses as an integer
(read.ts lines 572-591): pad the array with `undefined` up to the index,
then merge an array value element-wise (filling only `undefined` slots) or
set a non-array value at the index.  A negative `parseInt` result would
address a non-index string property, which is invisible to the reconstruction
result; it is modelled as a no-op (unreachable for chunker-produced ids). -/
def arrFinalAssign (xs : List DVal) (n : Int) (value : DVal) : List DVal :=
  match n with
  | Int.negSucc _ => xs
  | Int.ofNat i =>
    let padded := xs ++ List.replicate (i + 1 - xs.length) DVal.undef
    match value with
    | DVal.arr vs => mergeArrVals padded i vs
    | v => setAtExtend padded i v

/-- The navigation/assignment walk of step 3 (read.ts lines 555-595), as a
functional update.  `key in current` on a primitive (including `undefined`)
throws a `TypeError`, modelled as `Except.error`.  A property write on an
array under a non-index key is invisible to the result and modelled by
recursing and discarding (the JS object graph would keep it, but nothing in
the reconstruction reads it back). -/
def navPath : DVal → List String → DVal → Except Unit DVal
  | d, [], _ => Except.ok d
  | d, [finalKey], value =>
    match parseIntHead finalKey with
    | some n =>
      match d with
      | DVal.arr xs => Except.ok (DVal.arr (arrFinalAssign xs n value))
      | d => Except.ok d
    | none =>
      match d with
      | DVal.obj kvs => Except.ok (DVal.obj (upsert kvs finalKey value))
      | d => Except.ok d
  | d, key :: rest, value =>
    match d with
    | DVal.obj kvs =>
      let child := match lookupEntry kvs key with
        | some c => c
        | none =>
          if (parseIntHead (rest.headD "")).isSome then DVal.arr [] else DVal.obj []
      match navPath child rest value with
      | Except.ok updated => Except.ok (DVal.obj (upsert kvs key updated))
      | Except.error e => Except.error e
    | DVal.arr xs =>
      if isArrayIndexStr key then
        let i := digitsToNat key.toList
        let child :=
          if i < xs.length then xs.getD i DVal.undef
          else if (parseIntHead (rest.headD "")).isSome then DVal.arr []
          else DVal.obj []
        match navPath child rest value with
        | Except.ok updated => Except.ok (DVal.arr (setAtExtend xs i updated))
        | Except.error e => Except.error e
      else
        match navPath (if (parseIntHead (rest.headD "")).isSome then DVal.arr []
          else DVal.obj []) rest value with
        | Except.ok _ => Except.ok (DVal.arr xs)
        | Except.error e => Except.error e
    | _ => Except.error ()

/-- Step 3 of `reconstructFromLogChunks` for one content path
(read.ts lines 542-597). -/
def applyPath (result : List (String × DVal)) (contentPath : String)
    (value : DVal) : Except Unit (List (String × DVal)) :=
  let pathParts := splitOnDot contentPath.toList
  if pathParts.length = 1 ∧ strStartsWith (pathParts.headD "") "root" = true then
    match value with
    | DVal.obj kvs => Except.ok (objAssign result kvs)
    | _ => Except.ok result
  else
    match pathParts with
    | [] => Except.ok result
    | _ :: propertyPath =>
      match navPath (DVal.obj result) propertyPath value with
      | Except.ok (DVal.obj kvs) => Except.ok kvs
      | Except.ok _ => Except.ok result
      | Except.error e => Except.error e

def lookupContent : List (String × DVal) → String → DVal
  | [], _ => DVal.undef
  | (q, w) :: rest, k => if q = k then w else lookupContent rest k

/-- The path loop of step 3. -/
def applyPaths (content : List (String × DVal)) :
    List String → List (String × DVal) → Except Unit (List (String × DVal))
  | [], acc => Except.ok acc
  | p :: ps, acc =>
    match applyPath acc p (lookupContent content p) with
    | Except.ok acc1 => applyPaths content ps acc1
    | Except.error e => Except.error e

/-- Model of `reconstructFromLogChunks` (read.ts lines 456-600). -/
def reconstructFromLogChunks (logChunks : List LogChunk) : Except Unit DVal :=
  match logChunks with
  | [] => Except.error ()
  | _ =>
    let sortedChunks := isortBy (fun a b => decide (a.index ≤ b.index)) logChunks
    let groups := groupByContentPath sortedChunks []
    let content : List (String × DVal) := groups.map fun g => (g.1, reassembleGroup g.2)
    let sortedPaths := isortBy pathLe (content.map Prod.fst)
    match applyPaths content sortedPaths [] with
    | Except.ok kvs => Except.ok (DVal.obj kvs)
    | Except.error e => Except.error e

mutual
/-- Deep equality of dynamic values in the JS sense: objects compare as
key-value maps regardless of entry order; everything else compares
structurally.  `fuel` is a structural bound; all uses below supply a fuel
far above the compared values' depth. -/
def deepEqualF : Nat → DVal → DVal → Bool
  | 0, _, _ => false
  | _ + 1, DVal.str s, DVal.str t => s == t
  | _ + 1, DVal.num m, DVal.num n => m == n
  | _ + 1, DVal.bool x, DVal.bool y => x == y
  | _ + 1, DVal.null, DVal.null => true
  | _ + 1, DVal.undef, DVal.undef => true
  | fuel + 1, DVal.arr xs, DVal.arr ys => deepEqualListF fuel xs ys
  | fuel + 1, DVal.obj xs, DVal.obj ys =>
    (xs.length == ys.length) && deepEqualObjF fuel xs ys
  | _ + 1, _, _ => false

def deepEqualListF : Nat → List DVal → List DVal → Bool
  | 0, _, _ => false
  | _ + 1, [], [] => true
  | fuel + 1, x :: xs, y :: ys => deepEqualF fuel x y && deepEqualListF fuel xs ys
  | _ + 1, _, _ => false

def deepEqualObjF : Nat → List (String × DVal) → List (String × DVal) → Bool
  | 0, _, _ => false
  | _ + 1, [], _ => true
  | fuel + 1, (k, v) :: rest, ys =>
    (match lookupEntry ys k with
     | some w => deepEqualF fuel v w
     | none => false) && deepEqualObjF fuel rest ys
end

/-- C1 (counterexample): the round-trip fails already on the top-level
string `"a"` with `L = 1`: the reconstruction's final composition step only
merges object-shaped values into its root object, so the string is dropped
and `{}` comes back instead of `"a"`. -/
theorem roundTrip_fails_on_top_level_string :
    reconstructFromLogChunks (extractLogChunks (JVal.str ['a']) 1) =
      Except.ok (DVal.obj []) ∧
    DVal.obj [] ≠ jvalToDyn (JVal.str ['a']) := by
  constructor
  · rfl
  · intro h
    simp [jvalToDyn] at h

/-- C1 (amended, scenario S2): chunking `{"a": "X".repeat(10), "b": 1}` with
limit 4 yields a fragment tree whose first chunk nests a 3-part sub-chunking
under key `a`, and reconstructing the flat fragment list gives a value
deep-equal to the input. -/
theorem roundTrip_s2_example :
    generateChunks
        (JVal.obj [("a", JVal.str "XXXXXXXXXX".toList), ("b", JVal.num 1)]) 4 =
      [Chunk.mk
        (CData.objB [("a", CItem.nested
          [Chunk.mk (CData.cstr "XXXX".toList) 0 3 false,
           Chunk.mk (CData.cstr "XXXX".toList) 1 3 false,
           Chunk.mk (CData.cstr "XX".toList) 2 3 false])]) 0 2 true,
       Chunk.mk (CData.objB [("b", CItem.plain (JVal.num 1))]) 1 2 false] ∧
    (match reconstructFromLogChunks (extractLogChunks
        (JVal.obj [("a", JVal.str "XXXXXXXXXX".toList), ("b", JVal.num 1)]) 4) with
     | Except.ok r => deepEqualF 100 r (jvalToDyn
        (JVal.obj [("a", JVal.str "XXXXXXXXXX".toList), ("b", JVal.num 1)]))
     | Except.error _ => false) = true := by
  constructor
  · rfl
  · rfl

/-- Stable sort by `index` (`sort((a, b) => a.index - b.index)`). -/
def sortChunksByIndex (cs : List Chunk) : List Chunk :=
  isortBy (fun a b => decide (a.index ≤ b.index)) cs

/-- The sequential-index validation loop of `reassembleChunks`
(`sortedChunks[i].index !== i`). -/
def indexesSequential : Nat → List Chunk → Bool
  | _, [] => true
  | i, c :: cs => c.index == i && indexesSequential (i + 1) cs

/-- Model of `Object.entries` keys of an array (decimal positions), as
`Object.assign` copies them. -/
def indexEntries : Nat → List DVal → List (String × DVal)
  | _, [] => []
  | i, v :: vs => (toString i, v) :: indexEntries (i + 1) vs

/-- The object-merge loop of `reassembleChunks`:
`Object.assign(result, processedData)` for every processed chunk whose value
is a non-null object — entry lists for objects, decimal-indexed entries for
arrays; anything else is skipped.  (A chunk object cannot occur as a
processed top-level value, so the catch-all only skips scalars, `null` and
`undefined`.) -/
def mergeObjsGo : List (String × DVal) → List DVal → List (String × DVal)
  | acc, [] => acc
  | acc, DVal.obj kvs :: ps => mergeObjsGo (objAssign acc kvs) ps
  | acc, DVal.arr xs :: ps => mergeObjsGo (objAssign acc (indexEntries 0 xs)) ps
  | acc, _ :: ps => mergeObjsGo acc ps

/-- The array-flattening loop of `reassembleChunks`: keep the elements of
processed values that are arrays. -/
def collectArrs : List DVal → List DVal
  | [] => []
  | DVal.arr xs :: ps => xs ++ collectArrs ps
  | _ :: ps => collectArrs ps

mutual
/-- Model of `reassembleChunks`, nested-aware version (read.ts lines 277-339 =
chunkUtil.ts lines 370-432), in the `Except` monad: `Except.error ()` models
a thrown `Error`.  `fuel` decreases on every recursive call; the entry point
`reassembleChunks` supplies `chunkListSize`, which dominates the length of
every traversal of the chunk tree.  Processing of the per-chunk values is
hoisted before the type dispatch on the first chunk's data; the source
interleaves them per branch, but every branch processes every chunk the same
way, so the results and the thrown errors agree. -/
def raChunksF : Nat → List Chunk → Except Unit DVal
  | 0, _ => Except.error ()
  | fuel + 1, chunks =>
    match chunks with
    | [] => Except.error ()
    | _ :: _ =>
      match sortChunksByIndex chunks with
      | [] => Except.error ()
      | first :: rest =>
        if (first :: rest).length != first.total then Except.error ()
        else if !(indexesSequential 0 (first :: rest)) then Except.error ()
        else
          match rest with
          | [] =>
            if first.isNested then raNestedF fuel first.data
            else Except.ok (cdToDyn first.data)
          | _ :: _ =>
            match raProcListF fuel (first :: rest) with
            | Except.error e => Except.error e
            | Except.ok ps =>
              match cdToDyn first.data with
              | DVal.str _ => Except.ok (DVal.str (ps.map jsToString).flatten)
              | DVal.arr _ => Except.ok (DVal.arr (collectArrs ps))
              | DVal.obj _ => Except.ok (DVal.obj (mergeObjsGo [] ps))
              | _ => Except.ok (DVal.str (ps.map jsToString).flatten)

/-- The per-chunk processing
`chunk.isNested ? reassembleNestedData(chunk.data) : chunk.data` over the
sorted chunk list. -/
def raProcListF : Nat → List Chunk → Except Unit (List DVal)
  | 0, _ => Except.error ()
  | _ + 1, [] => Except.ok []
  | fuel + 1, c :: cs =>
    match (if c.isNested then raNestedF fuel c.data
           else Except.ok (cdToDyn c.data)) with
    | Except.error e => Except.error e
    | Except.ok p =>
      match raProcListF fuel cs with
      | Except.error e => Except.error e
      | Except.ok ps => Except.ok (p :: ps)

/-- Model of `reassembleNestedData` (read.ts lines 342-365): map an array or object,
reassembling every value that is a non-empty chunk list; everything else
passes through. -/
def raNestedF : Nat → CData → Except Unit DVal
  | 0, _ => Except.error ()
  | fuel + 1, CData.arrB items =>
    match raNestedItemsF fuel items with
    | Except.error e => Except.error e
    | Except.ok xs => Except.ok (DVal.arr xs)
  | fuel + 1, CData.objB kvs =>
    match raNestedObjF fuel kvs with
    | Except.error e => Except.error e
    | Except.ok kvs2 => Except.ok (DVal.obj kvs2)
  | _ + 1, d => Except.ok (cdToDyn d)

def raNestedItemsF : Nat → List CItem → Except Unit (List DVal)
  | 0, _ => Except.error ()
  | _ + 1, [] => Except.ok []
  | fuel + 1, it :: rest =>
    match (match it with
           | CItem.nested (c :: cs) => raChunksF fuel (c :: cs)
           | it2 => Except.ok (citemToDyn it2)) with
    | Except.error e => Except.error e
    | Except.ok v =>
      match raNestedItemsF fuel rest with
      | Except.error e => Except.error e
      | Except.ok vs => Except.ok (v :: vs)

def raNestedObjF : Nat → List (String × CItem) →
    Except Unit (List (String × DVal))
  | 0, _ => Except.error ()
  | _ + 1, [] => Except.ok []
  | fuel + 1, (k, it) :: rest =>
    match (match it with
           | CItem.nested (c :: cs) => raChunksF fuel (c :: cs)
           | it2 => Except.ok (citemToDyn it2)) with
    | Except.error e => Except.error e
    | Except.ok v =>
      match raNestedObjF fuel rest with
      | Except.error e => Except.error e
      | Except.ok vs => Except.ok ((k, v) :: vs)
end

mutual
def chunkSize : Chunk → Nat
  | Chunk.mk d _ _ _ => 1 + cdataSize d

def cdataSize : CData → Nat
  | CData.arrB items => 1 + citemListSize items
  | CData.objB kvs => 1 + citemObjSize kvs
  | _ => 1

def citemSize : CItem → Nat
  | CItem.plain _ => 1
  | CItem.nested cs => 1 + chunkListSize cs

def citemListSize : List CItem → Nat
  | [] => 1
  | it :: rest => 1 + citemSize it + citemListSize rest

def citemObjSize : List (String × CItem) → Nat
  | [] => 1
  | (_, it) :: rest => 1 + citemSize it + citemObjSize rest

def chunkListSize : List Chunk → Nat
  | [] => 1
  | c :: cs => 1 + chunkSize c + chunkListSize cs
end

/-- Model of `reassembleChunks` at its natural fuel. -/
def reassembleChunks (cs : List Chunk) : Except Unit DVal :=
  raChunksF (chunkListSize cs) cs

mutual
/-- Recursive validity of a fragment set, mirroring exactly which inputs
`reassembleChunks` accepts: non-empty, count equal to the first sorted
fragment's declared total, indices sequentially `0, 1, …`, and — for every
nested chunk list actually processed (the single chunk's data when it is
flagged nested, every chunk's data in the multi-chunk case) — the same
conditions recursively. -/
def chunksOkF : Nat → List Chunk → Bool
  | 0, _ => false
  | fuel + 1, chunks =>
    match chunks with
    | [] => false
    | _ :: _ =>
      match sortChunksByIndex chunks with
      | [] => false
      | first :: rest =>
        if (first :: rest).length != first.total then false
        else if !(indexesSequential 0 (first :: rest)) then false
        else
          match rest with
          | [] => if first.isNested then cdataOkF fuel first.data else true
          | _ :: _ => procAllOkF fuel (first :: rest)

def procAllOkF : Nat → List Chunk → Bool
  | 0, _ => false
  | _ + 1, [] => true
  | fuel + 1, c :: cs =>
    (if c.isNested then cdataOkF fuel c.data else true) && procAllOkF fuel cs

def cdataOkF : Nat → CData → Bool
  | 0, _ => false
  | fuel + 1, CData.arrB items => itemsOkF fuel items
  | fuel + 1, CData.objB kvs => objItemsOkF fuel kvs
  | _ + 1, _ => true

def itemsOkF : Nat → List CItem → Bool
  | 0, _ => false
  | _ + 1, [] => true
  | fuel + 1, it :: rest =>
    (match it with
     | CItem.nested (c :: cs) => chunksOkF fuel (c :: cs)
     | _ => true) && itemsOkF fuel rest

def objItemsOkF : Nat → List (String × CItem) → Bool
  | 0, _ => false
  | _ + 1, [] => true
  | fuel + 1, (_, it) :: rest =>
    (match it with
     | CItem.nested (c :: cs) => chunksOkF fuel (c :: cs)
     | _ => true) && objItemsOkF fuel rest
end

/-- Recursive validity at the same fuel `reassembleChunks` uses. -/
def chunksOk (cs : List Chunk) : Bool := chunksOkF (chunkListSize cs) cs

theorem raChunksF_isOk (fuel : Nat) :
    (∀ cs, (raChunksF fuel cs).isOk = chunksOkF fuel cs) ∧
    (∀ d, (raNestedF fuel d).isOk = cdataOkF fuel d) ∧
    (∀ cs, (raProcListF fuel cs).isOk = procAllOkF fuel cs) ∧
    (∀ its, (raNestedItemsF fuel its).isOk = itemsOkF fuel its) ∧
    (∀ kvs, (raNestedObjF fuel kvs).isOk = objItemsOkF fuel kvs) := by
  induction fuel with
  | zero =>
    exact ⟨fun cs => rfl, fun d => rfl, fun cs => rfl, fun its => rfl,
      fun kvs => rfl⟩
  | succ fuel ih =>
    obtain ⟨ih1, ih2, ih3, ih4, ih5⟩ := ih
    have hproc : ∀ cs, (raProcListF (fuel + 1) cs).isOk = procAllOkF (fuel + 1) cs := by
      intro cs
      induction cs with
      | nil => rfl
      | cons c cs ihc =>
        simp only [raProcListF, procAllOkF]
        by_cases hn : c.isNested
        · cases hr : raNestedF fuel c.data with
          | error e =>
            have h2 := ih2 c.data
            rw [hr] at h2
            simp [hn, hr, Except.isOk, Except.toBool, ← h2]
          | ok p =>
            have h2 := ih2 c.data
            rw [hr] at h2
            cases hp : raProcListF fuel cs with
            | error e =>
              have h3 := ih3 cs
              rw [hp] at h3
              simp [hn, hr, hp, Except.isOk, Except.toBool, ← h2, ← h3]
            | ok ps =>
              have h3 := ih3 cs
              rw [hp] at h3
              simp [hn, hr, hp, Except.isOk, Except.toBool, ← h2, ← h3]
        · cases hp : raProcListF fuel cs with
          | error e =>
            have h3 := ih3 cs
            rw [hp] at h3
            simp [hn, hp, Except.isOk, Except.toBool, ← h3]
          | ok ps =>
            have h3 := ih3 cs
            rw [hp] at h3
            simp [hn, hp, Except.isOk, Except.toBool, ← h3]
    have hitems : ∀ its, (raNestedItemsF (fuel + 1) its).isOk = itemsOkF (fuel + 1) its := by
      intro its
      induction its with
      | nil => rfl
      | cons it rest ihc =>
        simp only [raNestedItemsF, itemsOkF]
        have hrest : ∀ (v : Bool),
            (match raNestedItemsF fuel rest with
             | Except.error e => (Except.error e : Except Unit (List DVal))
             | Except.ok vs => Except.ok vs).isOk = itemsOkF fuel rest := by
          intro v
          cases hp : raNestedItemsF fuel rest with
          | error e =>
            have h4 := ih4 rest
            rw [hp] at h4
            simpa [Except.isOk, Except.toBool] using h4
          | ok vs =>
            have h4 := ih4 rest
            rw [hp] at h4
            simpa [Except.isOk, Except.toBool] using h4
        rcases it with v | cs
        · cases hp : raNestedItemsF fuel rest with
          | error e =>
            have h4 := ih4 rest
            rw [hp] at h4
            simp [hp, Except.isOk, Except.toBool, ← h4]
          | ok vs =>
            have h4 := ih4 rest
            rw [hp] at h4
            simp [hp, Except.isOk, Except.toBool, ← h4]
        · rcases cs with _ | ⟨c, cs⟩
          · cases hp : raNestedItemsF fuel rest with
            | error e =>
              have h4 := ih4 rest
              rw [hp] at h4
              simp [hp, Except.isOk, Except.toBool, ← h4]
            | ok vs =>
              have h4 := ih4 rest
              rw [hp] at h4
              simp [hp, Except.isOk, Except.toBool, ← h4]
          · cases hr : raChunksF fuel (c :: cs) with
            | error e =>
              have h1 := ih1 (c :: cs)
              rw [hr] at h1
              simp [hr, Except.isOk, Except.toBool, ← h1]
            | ok v =>
              have h1 := ih1 (c :: cs)
              rw [hr] at h1
              cases hp : raNestedItemsF fuel rest with
              | error e =>
                have h4 := ih4 rest
                rw [hp] at h4
                simp [hr, hp, Except.isOk, Except.toBool, ← h1, ← h4]
              | ok vs =>
                have h4 := ih4 rest
                rw [hp] at h4
                simp [hr, hp, Except.isOk, Except.toBool, ← h1, ← h4]
    have hobj : ∀ kvs, (raNestedObjF (fuel + 1) kvs).isOk = objItemsOkF (fuel + 1) kvs := by
      intro kvs
      induction kvs with
      | nil => rfl
      | cons kv rest ihc =>
        obtain ⟨k, it⟩ := kv
        simp only [raNestedObjF, objItemsOkF]
        rcases it with v | cs
        · cases hp : raNestedObjF fuel rest with
          | error e =>
            have h5 := ih5 rest
            rw [hp] at h5
            simp [hp, Except.isOk, Except.toBool, ← h5]
          | ok vs =>
            have h5 := ih5 rest
            rw [hp] at h5
            simp [hp, Except.isOk, Except.toBool, ← h5]
        · rcases cs with _ | ⟨c, cs⟩
          · cases hp : raNestedObjF fuel rest with
            | error e =>
              have h5 := ih5 rest
              rw [hp] at h5
              simp [hp, Except.isOk, Except.toBool, ← h5]
            | ok vs =>
              have h5 := ih5 rest
              rw [hp] at h5
              simp [hp, Except.isOk, Except.toBool, ← h5]
          · cases hr : raChunksF fuel (c :: cs) with
            | error e =>
              have h1 := ih1 (c :: cs)
              rw [hr] at h1
              simp [hr, Except.isOk, Except.toBool, ← h1]
            | ok v =>
              have h1 := ih1 (c :: cs)
              rw [hr] at h1
              cases hp : raNestedObjF fuel rest with
              | error e =>
                have h5 := ih5 rest
                rw [hp] at h5
                simp [hr, hp, Except.isOk, Except.toBool, ← h1, ← h5]
              | ok vs =>
                have h5 := ih5 rest
                rw [hp] at h5
                simp [hr, hp, Except.isOk, Except.toBool, ← h1, ← h5]
    have hnested : ∀ d, (raNestedF (fuel + 1) d).isOk = cdataOkF (fuel + 1) d := by
      intro d
      rcases d with s | v | items | kvs
      · rfl
      · rfl
      · simp only [raNestedF, cdataOkF]
        cases hi : raNestedItemsF fuel items with
        | error e =>
          have h4 := ih4 items
          rw [hi] at h4
          simp [hi, Except.isOk, Except.toBool, ← h4]
        | ok xs =>
          have h4 := ih4 items
          rw [hi] at h4
          simp [hi, Except.isOk, Except.toBool, ← h4]
      · simp only [raNestedF, cdataOkF]
        cases hi : raNestedObjF fuel kvs with
        | error e =>
          have h5 := ih5 kvs
          rw [hi] at h5
          simp [hi, Except.isOk, Except.toBool, ← h5]
        | ok xs =>
          have h5 := ih5 kvs
          rw [hi] at h5
          simp [hi, Except.isOk, Except.toBool, ← h5]
    refine ⟨?_, hnested, hproc, hitems, hobj⟩
    intro cs
    rcases cs with _ | ⟨c0, cs0⟩
    · rfl
    · simp only [raChunksF, chunksOkF]
      cases hs : sortChunksByIndex (c0 :: cs0) with
      | nil => rfl
      | cons first rest =>
        dsimp only
        cases hlen : (first :: rest).length != first.total with
        | true => rfl
        | false =>
          cases hseq : !(indexesSequential 0 (first :: rest)) with
          | true => rfl
          | false =>
            rcases rest with _ | ⟨c1, rest1⟩
            · cases hn : first.isNested with
              | true => exact ih2 first.data
              | false => rfl
            · cases hp : raProcListF fuel (first :: c1 :: rest1) with
              | error e =>
                have h3 := ih3 (first :: c1 :: rest1)
                rw [hp] at h3
                exact h3
              | ok ps =>
                have h3 := ih3 (first :: c1 :: rest1)
                rw [hp] at h3
                cases hd : cdToDyn first.data <;> exact h3

/-- C9 (amended): the nested-aware `reassembleChunks` raises exactly when
the fragment set is recursively invalid: it raises on zero fragments, on a
count differing from the total declared by the first sorted fragment, on
indices that are not exactly `0, 1, …, total − 1` when sorted, or when a
nested chunk list that reassembly descends into violates the same
conditions; on every other input it returns a value without raising.  (The
original claim omitted the recursive condition; see the counterexample.) -/
theorem reassembleChunks_error_characterization (cs : List Chunk) :
    (reassembleChunks cs).isOk = chunksOk cs :=
  (raChunksF_isOk (chunkListSize cs)).1 cs

/-- C9 (counterexample): a singleton fragment set that satisfies all three
of the claim's conditions — non-empty, count 1 equal to the declared total,
index list exactly `[0]` — on which `reassembleChunks` nevertheless raises,
because the nested chunk list under its data declares index 1 in a 1-chunk
set. -/
theorem reassembleChunks_raises_on_valid_top_level :
    reassembleChunks
        [Chunk.mk (CData.arrB [CItem.nested [Chunk.mk (CData.cstr ['x']) 1 1 false]]) 0 1 true] =
      Except.error () ∧
    [Chunk.mk (CData.arrB [CItem.nested [Chunk.mk (CData.cstr ['x']) 1 1 false]]) 0 1 true].length = 1 ∧
    (sortChunksByIndex
        [Chunk.mk (CData.arrB [CItem.nested [Chunk.mk (CData.cstr ['x']) 1 1 false]]) 0 1 true]).map
        Chunk.total = [1] ∧
    (sortChunksByIndex
        [Chunk.mk (CData.arrB [CItem.nested [Chunk.mk (CData.cstr ['x']) 1 1 false]]) 0 1 true]).map
        Chunk.index = [0] := by
  refine ⟨rfl, rfl, rfl, rfl⟩

/-- One log line's storage-relevant attributes, as emitted by `LogRail`
(src/database/index.ts) and read back through `RailwayUtil.logToData`
(src/database/railwayUtil.ts lines 49-67).  Attribute values arrive
JSON-encoded; the model keeps them parsed.  A list of entries returned by a
platform query is ordered newest first. -/
structure LogEntry where
  id? : Option String
  op? : Option String
  data? : Option DVal
  index? : Option Nat
  total? : Option Nat

/-- Model of `Object.entries` under decimal index keys for the characters of a
string, as the spread `{...s}` of a string produces. -/
def strIndexEntries : Nat → List Char → List (String × DVal)
  | _, [] => []
  | i, c :: rest => (toString i, DVal.str [c]) :: strIndexEntries (i + 1) rest

/-- The JS spread `{...v}`: objects spread their entries, arrays and strings
spread their elements/characters under decimal index keys, other values
contribute no enumerable properties. -/
def spreadDyn : DVal → List (String × DVal)
  | DVal.obj kvs => kvs
  | DVal.arr xs => indexEntries 0 xs
  | DVal.str s => strIndexEntries 0 s
  | _ => []

/-- The record object `logToData` produces: `{...parsedData}` plus the
`__`-prefixed meta properties when the corresponding attribute exists.  The
meta fields are kept in separate slots; in JS they are ordinary properties
named `__id`, `__operation`, `__index`, `__total`, assumed not to collide
with data keys. -/
structure RecObj where
  props : List (String × DVal)
  id? : Option String
  op? : Option String
  index? : Option Nat
  total? : Option Nat

/-- Model of `RailwayUtil.logToData` (railwayUtil.ts lines 49-67). -/
def logToData (e : LogEntry) : RecObj :=
  { props := match e.data? with
      | some d => spreadDyn d
      | none => []
    id? := e.id?
    op? := e.op?
    index? := e.index?
    total? := e.total? }

/-- The string-chunk join of the private `RailwayUtil.reassembleChunks`
(railwayUtil.ts lines 113-121): for each chunk, the value under the first
chunk's single key, coerced by `join('')` (missing, `null` and `undefined`
become the empty string). -/
def rwStringJoin (key : String) : List RecObj → List Char
  | [] => []
  | c :: cs =>
    (match lookupEntry c.props key with
     | some v => jsElemToString v
     | none => []) ++ rwStringJoin key cs

/-- The object merge of the private `RailwayUtil.reassembleChunks`. -/
def rwMergeProps : List (String × DVal) → List RecObj → List (String × DVal)
  | acc, [] => acc
  | acc, c :: cs => rwMergeProps (objAssign acc c.props) cs

/-- The private `RailwayUtil.reassembleChunks` (railwayUtil.ts lines
87-164).  `none` models the `undefined` it returns on an empty list.  A
"clean chunk" (metadata deleted) is exactly the `props` slot of the model.
Since a clean chunk is always a plain object — the spread of any value is —
`Array.isArray(firstChunk)` is always false and the array and string-fallback
branches of the source are dead; the reachable branches are the single-key
string heuristic and the object merge. -/
def rwReassembleChunks (chunks : List RecObj) : Option DVal :=
  match chunks with
  | [] => none
  | [c] => some (DVal.obj c.props)
  | _ =>
    let sorted := isortBy
      (fun a b => decide (a.index?.getD 0 ≤ b.index?.getD 0)) chunks
    match sorted with
    | [] => none
    | first :: _ =>
      match first.props with
      | [(k, DVal.str _)] => some (DVal.str (rwStringJoin k sorted))
      | _ => some (DVal.obj (rwMergeProps [] sorted))

/-- A log-search request as issued to the platform client: the filter
string and the `afterLimit`. -/
structure LogRequest where
  filter : String
  afterLimit : Nat

/-- The filter of `fetchAllChunksForRecord` (railwayUtil.ts line 227):
`@__id:"<id>" AND @operation:"<op>"`. -/
def mkChunksFilter (id op : String) : String :=
  "@__id:\"" ++ id ++ "\" AND @operation:\"" ++ op ++ "\""

/-- The request `fetchAllChunksForRecord` issues (railwayUtil.ts lines
227-234); the caller passes the declared total as `limit` and it is used
as `afterLimit` unchanged. -/
def fetchAllChunksRequest (id op : String) (limit : Nat) : LogRequest :=
  { filter := mkChunksFilter id op, afterLimit := limit }

/-- Semantic effect of `fetchAllChunksForRecord` against a store of emitted
log lines (newest first): the platform returns the entries whose `__id` and
`operation` attributes match the filter, truncated to the request's
`afterLimit`, and each is converted by `logToData`. -/
def fetchAllChunksM (store : List LogEntry) (id op : String) (limit : Nat) :
    List RecObj :=
  (((store.filter fun e => e.id? == some id && e.op? == some op).take
    (fetchAllChunksRequest id op limit).afterLimit).map logToData)

/-- The record shapes `processLogObjects` pushes: a reassembled record
`{__id, data, operation}` (with `_incomplete: true` when chunks are
missing), or a single-chunk record (the log object minus `__index` and
`__total`). -/
inductive ProcRec where
  | assembled (id : Option String) (data : Option DVal) (op : Option String)
      (incomplete : Bool)
  | single (r : RecObj)

/-- Model of `"encrypted" in rawPackage` on a processed record. -/
def ProcRec.hasEncrypted : ProcRec → Bool
  | ProcRec.assembled _ _ _ _ => false
  | ProcRec.single r => (lookupEntry r.props "encrypted").isSome

/-- Model of `rawPackage.data` on a processed record (`none` models `undefined`). -/
def ProcRec.dataProp : ProcRec → Option DVal
  | ProcRec.assembled _ d _ _ => d
  | ProcRec.single r => lookupEntry r.props "data"

/-- Model of `RailwayUtil.processLogObjects` (railwayUtil.ts lines 167-222): for
every object declaring a total above 1, refetch ALL chunks by the repair
query (passing the declared total as the limit) and use only the refetched
set — the initially returned fragments are not merged in and no
deduplication by index happens; reassembly is complete only when the
refetch returns exactly `total` entries, otherwise the partial result is
marked `_incomplete`. -/
def processLogObjects (store : List LogEntry) : List RecObj → List ProcRec
  | [] => []
  | o :: os =>
    (match o.total? with
     | some t =>
       if 1 < t then
         let allChunks := fetchAllChunksM store (o.id?.getD "") (o.op?.getD "") t
         if allChunks.length = t then
           [ProcRec.assembled o.id? (rwReassembleChunks allChunks) o.op? false]
         else
           [ProcRec.assembled o.id? (rwReassembleChunks allChunks) o.op? true]
       else [ProcRec.single { o with index? := none, total? := none }]
     | none => [ProcRec.single { o with index? := none, total? := none }])
    ++ processLogObjects store os

/-- The search parameters the claims exercise (`attributes` and the raw
`filter` pass-through of `dataSearch` are omitted: nothing in the claims
uses them, and they contribute further `@key:"value"` conditions in the
same way `id` and `operation` do). -/
structure SearchParams where
  id? : Option String
  op? : Option String
  limit? : Option Nat
  excludeId? : Option String
  excludeOp? : Option String

/-- JavaScript `v || dflt` on an optional number (`0` is falsy). -/
def jsOrNat (v : Option Nat) (dflt : Nat) : Nat :=
  match v with
  | some 0 => dflt
  | some n => n
  | none => dflt

/-- One platform filter condition `@key:"value"`, negated with a leading
`-` (railwayUtil.ts lines 70-84). -/
def filterCond (neg : Bool) (key value : String) : String :=
  (if neg then "-" else "") ++ "@" ++ key ++ ":\"" ++ value ++ "\""

def buildFilterConds (id? op? : Option String) (neg : Bool) : List String :=
  (match id? with
   | some i => [filterCond neg "__id" i]
   | none => []) ++
  (match op? with
   | some o => [filterCond neg "operation" o]
   | none => [])

def joinAnd : List String → String
  | [] => ""
  | [c] => c
  | c :: cs => c ++ " AND " ++ joinAnd cs

/-- The request `RailwayUtil.dataSearch` issues (railwayUtil.ts lines
248-271): include conditions, then exclude conditions, joined with
` AND ` (the caller-supplied raw filter, not modelled, would be placed in
front), and `afterLimit` equal to `params.limit || 1` — the requested
limit is used as is, with no multiplication and no lower bound from
`maxLogRequestSize`. -/
def dataSearchRequest (p : SearchParams) : LogRequest :=
  { filter := joinAnd (buildFilterConds p.id? p.op? false ++
      buildFilterConds p.excludeId? p.excludeOp? true)
    afterLimit := jsOrNat p.limit? 1 }

/-- Model of `CONFIG.railway.log.maxLogRequestSize` (src/config/index.ts line 20):
default 5000.  No code under src/ ever reads it. -/
def maxLogRequestSize : Nat := 5000

/-- Platform evaluation of the constructed filter on one entry (attribute
equality for include conditions, negated for exclude conditions). -/
def entryMatches (p : SearchParams) (e : LogEntry) : Bool :=
  (match p.id? with
   | some i => e.id? == some i
   | none => true) &&
  (match p.op? with
   | some o => e.op? == some o
   | none => true) &&
  (match p.excludeId? with
   | some i => !(e.id? == some i)
   | none => true) &&
  (match p.excludeOp? with
   | some o => !(e.op? == some o)
   | none => true)

/-- Model of `RailwayUtil.dataSearch` (railwayUtil.ts lines 248-286), evaluated
against a store: throws without a configured environment id; returns
`undefined` when no log matches; otherwise converts the first
`limit` matching entries and processes them. -/
def dataSearchM (envProvided : Bool) (store : List LogEntry)
    (p : SearchParams) : Except Unit (Option (List ProcRec)) :=
  if !envProvided then Except.error ()
  else
    let limit := jsOrNat p.limit? 1
    let logs := (store.filter (entryMatches p)).take
      (dataSearchRequest p).afterLimit
    match logs with
    | [] => Except.ok none
    | _ => Except.ok (some (processLogObjects store ((logs.take limit).map logToData)))

/-- Model of `RailwayUtil.dataFromId` (railwayUtil.ts lines 288-296):
`dataSearch({id, exclude: {operation: "read"}, limit: 1})`; with limit 1
the search returns `processedRecords[0]`.  Note that only `read` operations
are excluded — a `delete` tombstone is NOT filtered out and, being the
newest line for the record, is returned as the record. -/
def dataFromIdM (envProvided : Bool) (store : List LogEntry) (id : String) :
    Except Unit (Option ProcRec) :=
  match dataSearchM envProvided store
      { id? := some id, op? := none, limit? := some 1,
        excludeId? := none, excludeOp? := some "read" } with
  | Except.error e => Except.error e
  | Except.ok none => Except.ok none
  | Except.ok (some rs) => Except.ok rs.head?

/-- The configuration `LogRail.read` consults. -/
structure ReadConfig where
  deploymentId? : Option String
  envProvided : Bool
  globalKey? : Option String
  token? : Option String

/-- Model of `LogRail.read` (src/database/index.ts lines 67-92).  `Except.error`
models a thrown error; `Except.ok none` models returning the falsy raw
package (`undefined`), i.e. "not found".  `decryptFn` abstracts the
`DataEncryption.decrypt` collaborator, whose source is not in the
repository snapshot; the unencrypted flows settled here never invoke it.
The returned pair is `{...rawPackage, data}`: the raw package and the data
property that overwrites it. -/
def logRailRead (cfg : ReadConfig)
    (decryptFn : Option DVal → Option String → Option DVal)
    (store : List LogEntry) (id : String) :
    Except Unit (Option (ProcRec × Option DVal)) :=
  match cfg.deploymentId? with
  | none => Except.error ()
  | some _ =>
    match dataFromIdM cfg.envProvided store id with
    | Except.error e => Except.error e
    | Except.ok none => Except.ok none
    | Except.ok (some pkg) =>
      if pkg.hasEncrypted && cfg.token?.isNone && cfg.globalKey?.isNone then
        Except.error ()
      else
        Except.ok (some (pkg,
          if pkg.hasEncrypted then decryptFn pkg.dataProp cfg.token?
          else pkg.dataProp))

/-- The tombstone `LogRail.delete` emits (src/database/index.ts lines
138-140): a single line with `__id` and `operation: "delete"`, no data, no
index, no total. -/
def deleteEmit (id : String) : LogEntry :=
  { id? := some id, op? := some "delete", data? := none, index? := none,
    total? := none }

/-- The lines `LogRail.create` emits for a value (src/database/index.ts
lines 52-62): one per extracted log chunk. -/
def createEmits (v : JVal) (id : String) (L : Nat) : List LogEntry :=
  (extractLogChunks v L).map fun c =>
    { id? := some id, op? := some "create", data? := some (cdToDyn c.data),
      index? := some c.index, total? := some c.total }

/-- The configuration `LogRail.create` consults. -/
structure CreateConfig where
  encryption : Bool
  encryptionToken : Option String

/-- Model of `LogRail.create` (src/database/index.ts lines 44-65).  `encryptFn`
abstracts the `DataEncryption.encrypt` collaborator (not in the repository
snapshot); `uuid` stands for the `randomUUID()` draw, an input from the
environment.  Returns the record `{ data, __id }` — with the ORIGINAL
plaintext `data` argument — together with the emitted log lines, which
chunk `storeData` (the encrypted form when encryption applies). -/
def logRailCreate (encryptFn : JVal → Option String → JVal)
    (cfg : CreateConfig) (uuid : String) (L : Nat) (data : JVal) :
    (JVal × String) × List LogEntry :=
  let shouldEncrypt := cfg.encryption || cfg.encryptionToken.isSome
  let storeData := if shouldEncrypt then encryptFn data cfg.encryptionToken else data
  ((data, uuid), createEmits storeData uuid L)

theorem processLogObjects_length (store : List LogEntry) (os : List RecObj) :
    (processLogObjects store os).length = os.length := by
  induction os with
  | nil => rfl
  | cons o os ih =>
    simp only [processLogObjects]
    rcases o.total? with _ | t
    · simp [ih]
    · by_cases h : 1 < t
      · by_cases h2 : (fetchAllChunksM store (o.id?.getD "") (o.op?.getD "") t).length = t <;>
          simp [h, h2, ih]
      · simp [h, ih]

/-- C2 (code demonstration at the failing input): after `create` of
`{"hello": "world"}` under a record id followed by `delete` of that id,
`LogRail.read` does NOT report not-found: `dataFromId` excludes only
`read` operations, so the delete tombstone is returned as the newest
record, and `read` passes it through as
`{__id, __operation: "delete", data: undefined}`. -/
theorem read_returns_record_after_delete :
    logRailRead
        { deploymentId? := some "dep", envProvided := true,
          globalKey? := none, token? := none }
        (fun d _ => d)
        (deleteEmit "rid" ::
          createEmits (JVal.obj [("hello", JVal.str "world".toList)]) "rid" 60000)
        "rid" =
      Except.ok (some
        (ProcRec.single
          { props := [], id? := some "rid", op? := some "delete",
            index? := none, total? := none }, none)) ∧
    logRailRead
        { deploymentId? := some "dep", envProvided := true,
          globalKey? := none, token? := none }
        (fun d _ => d)
        (deleteEmit "rid" ::
          createEmits (JVal.obj [("hello", JVal.str "world".toList)]) "rid" 60000)
        "rid" ≠ Except.ok none := by
  constructor
  · rfl
  · intro h
    exact Option.noConfusion (Except.ok.inj h)

/-- C5 (amended): the completion pass triggers for every fetched object
whose declared total exceeds 1 and issues the secondary query with filter
exactly `@__id:"<rid>" AND @operation:"<op>"` — but with limit equal to the
declared total (not 2 × total), and the fetched secondary results REPLACE
the initial fragments (no merging, no deduplication by idx): the refetch is
a plain filter-and-truncate of the store. -/
theorem repair_query_shape (id op : String) (t : Nat) (store : List LogEntry) :
    (fetchAllChunksRequest id op t).filter =
      "@__id:\"" ++ id ++ "\" AND @operation:\"" ++ op ++ "\"" ∧
    (fetchAllChunksRequest id op t).afterLimit = t ∧
    fetchAllChunksM store id op t =
      ((store.filter fun e => e.id? == some id && e.op? == some op).take t).map
        logToData := by
  exact ⟨rfl, rfl, rfl⟩

/-- C5 (counterexample): with 5 declared chunks the repair query is issued
with limit 5, not the claimed `2 × 5 = 10`. -/
theorem repair_limit_counterexample :
    (fetchAllChunksRequest "X" "create" 5).afterLimit = 5 ∧
    (fetchAllChunksRequest "X" "create" 5).afterLimit ≠ 2 * 5 := by
  exact ⟨rfl, by decide⟩

/-- C6 (amended): the fetch issued by `dataSearch` uses
`afterLimit = params.limit || 1` — the requested limit unchanged (defaulted
to 1), with no `× 10` multiplication and no `maxLogRequestSize` floor (that
constant is configured, default 5000, but never read by the search path);
consequently a search never yields more than `params.limit || 1` records. -/
theorem dataSearch_fetch_limit (p : SearchParams) (store : List LogEntry) :
    (dataSearchRequest p).afterLimit = jsOrNat p.limit? 1 ∧
    (match dataSearchM true store p with
     | Except.ok (some rs) => rs.length ≤ jsOrNat p.limit? 1
     | _ => True) := by
  refine ⟨rfl, ?_⟩
  rw [dataSearchM]
  simp only [Bool.not_true, Bool.false_eq_true, if_false]
  rcases hlogs : (store.filter (entryMatches p)).take
      (dataSearchRequest p).afterLimit with _ | ⟨l, ls⟩
  · simp
  · simp only
    rw [processLogObjects_length]
    calc ((((l :: ls).take (jsOrNat p.limit? 1)).map logToData)).length
        = ((l :: ls).take (jsOrNat p.limit? 1)).length := by
          rw [List.length_map]
      _ ≤ jsOrNat p.limit? 1 := List.length_take_le _ _

/-- C6 (counterexample): a search with requested limit 2 fetches with
`afterLimit = 2`, not `max(2 × 10, 5000) = 5000`. -/
theorem dataSearch_limit_counterexample :
    (dataSearchRequest
      { id? := some "X", op? := none, limit? := some 2,
        excludeId? := none, excludeOp? := none }).afterLimit = 2 ∧
    (dataSearchRequest
      { id? := some "X", op? := none, limit? := some 2,
        excludeId? := none, excludeOp? := none }).afterLimit ≠
      max (2 * 10) maxLogRequestSize := by
  exact ⟨rfl, by decide⟩

/-- C10: `LogRail.create` returns `{ data, __id }` where `data` is the
exact plaintext the caller passed — also when encryption applies, in which
case the EMITTED fragments chunk the encrypted store form instead — and
`__id` is the fresh uuid drawn from the environment, not derived from the
input (creating two different values under the same draw yields the same
id). -/
theorem create_returns_plaintext_and_fresh_id
    (encryptFn : JVal → Option String → JVal) (cfg : CreateConfig)
    (uuid : String) (L : Nat) (data other : JVal) :
    (logRailCreate encryptFn cfg uuid L data).1 = (data, uuid) ∧
    (logRailCreate encryptFn cfg uuid L data).2 =
      createEmits
        (if cfg.encryption || cfg.encryptionToken.isSome then
          encryptFn data cfg.encryptionToken
         else data) uuid L ∧
    (logRailCreate encryptFn cfg uuid L data).1.2 =
      (logRailCreate encryptFn cfg uuid L other).1.2 := by
  exact ⟨rfl, rfl, rfl⟩

end LogCar
